import Mathlib

/-!
Verification of the label-model estimation engine of the `metal` repository.

The definitions below are shallow embeddings of the Python source in
`src/metal/label_model/label_model.py` and `src/metal/utils.py`.
Matrices are modelled as total functions from natural-number indices
(junk values outside the stated dimensions are irrelevant to every
statement, which always carries explicit dimension bounds).  Exact
rational arithmetic stands in for numpy floating point, and real
arithmetic stands in for floating point wherever the source takes
exponentials and logarithms.
-/

namespace Metal

/-- Embeds the unary part of `LabelModel._get_augmented_label_matrix`
(single-task branch, `offset=1`, the only offset used by the source:
`L_aug[:, y-offset::km] = np.where(L == y, 1, 0)` for `y` in `1..k`).
Column `c = j*k + (v-1)` of the augmented matrix (for source `j` and
value `v`) is the 0/1 indicator of `L[i, j] == v`; equivalently the
column with index `c` is the indicator of `L[i, c/k] == c%k + 1`. -/
def LAug (k : ℕ) (L : ℕ → ℕ → ℕ) (i c : ℕ) : ℚ :=
  if L i (c / k) = c % k + 1 then 1 else 0

/-- Embeds `LabelModel._generate_O`: the overlaps matrix
`O = L_aug.T @ L_aug / n`, entrywise
`O[a,b] = (sum_i L_aug[i,a] * L_aug[i,b]) / n`. -/
def Omat (n : ℕ) (Laug : ℕ → ℕ → ℚ) (a b : ℕ) : ℚ :=
  (∑ i ∈ Finset.range n, Laug i a * Laug i b) / n

lemma LAug_eq_ite (k : ℕ) (L : ℕ → ℕ → ℕ) (i c : ℕ) :
    LAug k L i c = if LAug k L i c = 1 then 1 else 0 := by
  unfold LAug
  by_cases h : L i (c / k) = c % k + 1 <;> simp [h]

lemma LAug_sq (k : ℕ) (L : ℕ → ℕ → ℕ) (i c : ℕ) :
    LAug k L i c * LAug k L i c = if LAug k L i c = 1 then 1 else 0 := by
  unfold LAug
  by_cases h : L i (c / k) = c % k + 1 <;> simp [h]

/-- C9: the moment matrix `O` computed by `_generate_O` is symmetric,
and each diagonal entry `O[c,c]` equals the fraction of the `n` rows in
which augmented column `c` is 1 (the column's marginal coverage rate). -/
theorem Omat_symm_and_diag_coverage (n k : ℕ) (L : ℕ → ℕ → ℕ) :
    (∀ a b, Omat n (LAug k L) a b = Omat n (LAug k L) b a) ∧
    (∀ c, Omat n (LAug k L) c c =
      (((Finset.range n).filter (fun i => LAug k L i c = 1)).card : ℚ) / n) := by
  constructor
  · intro a b
    unfold Omat
    congr 1
    exact Finset.sum_congr rfl (fun i _ => mul_comm _ _)
  · intro c
    unfold Omat
    congr 1
    rw [← Finset.sum_boole]
    exact Finset.sum_congr rfl (fun i _ => LAug_sq k L i c)

/-- C10: in the single-task augmented matrix with offset 1, the `k`
unary indicator columns of source `j` (columns `j*k .. j*k + k - 1`)
sum to 1 on row `i` when `L[i,j]` is a non-abstain value in `1..k`,
and to 0 when `L[i,j] = 0` (abstain): each source's unary block is a
mutually exclusive one-hot encoding of its non-abstain vote. -/
theorem LAug_unary_one_hot (k : ℕ) (hk : 0 < k) (L : ℕ → ℕ → ℕ) (i j : ℕ)
    (hL : L i j ≤ k) :
    ∑ v ∈ Finset.range k, LAug k L i (j * k + v) =
      if L i j = 0 then 0 else 1 := by
  have hcol : ∀ v ∈ Finset.range k,
      LAug k L i (j * k + v) = if L i j = v + 1 then 1 else 0 := by
    intro v hv
    have hvk : v < k := Finset.mem_range.1 hv
    unfold LAug
    have hdiv : (j * k + v) / k = j := by
      rw [mul_comm j k, Nat.mul_add_div hk, Nat.div_eq_of_lt hvk, add_zero]
    have hmod : (j * k + v) % k = v := by
      rw [mul_comm j k, Nat.mul_add_mod, Nat.mod_eq_of_lt hvk]
    rw [hdiv, hmod]
  rw [Finset.sum_congr rfl hcol]
  by_cases h0 : L i j = 0
  · simp only [h0, if_true]
    apply Finset.sum_eq_zero
    intro v _
    simp [Nat.succ_ne_zero]
  · simp only [h0, if_false]
    obtain ⟨s, hs⟩ : ∃ s, L i j = s + 1 :=
      ⟨L i j - 1, (Nat.succ_pred_eq_of_pos (Nat.pos_of_ne_zero h0)).symm⟩
    have hsk : s < k := by omega
    have hcond : ∀ v, (L i j = v + 1) ↔ (v = s) := by
      intro v; omega
    calc ∑ v ∈ Finset.range k, (if L i j = v + 1 then (1 : ℚ) else 0)
        = ∑ v ∈ Finset.range k, (if v = s then (1 : ℚ) else 0) := by
          exact Finset.sum_congr rfl (fun v _ => by rw [if_congr (hcond v) rfl rfl])
      _ = if s ∈ Finset.range k then (1 : ℚ) else 0 :=
          Finset.sum_ite_eq' (Finset.range k) s (fun _ => (1 : ℚ))
      _ = 1 := by rw [if_pos (Finset.mem_range.2 hsk)]

/-- Witness for `LAug_unary_one_hot` at a concrete input:
`k = 2`, one row, two sources voting `(1, 0)`. -/
theorem LAug_unary_one_hot_witness :
    (0 < 2 ∧ (fun _ _ => 1 : ℕ → ℕ → ℕ) 0 0 ≤ 2) ∧
    ∑ v ∈ Finset.range 2, LAug 2 (fun _ _ => 1) 0 (0 * 2 + v) =
      if (fun _ _ => 1 : ℕ → ℕ → ℕ) 0 0 = 0 then 0 else 1 :=
  ⟨⟨by decide, by decide⟩,
    LAug_unary_one_hot 2 (by decide) (fun _ _ => 1) 0 0 (by decide)⟩

/-! ### Inference (`LabelModel.get_label_probs` / `predict_proba`) -/

/-- Embeds `np.clip(mu, 0.01, 0.99)` applied entrywise to `mu` in
`get_label_probs`. -/
noncomputable def clip01 (x : ℝ) : ℝ := min (max x (1 / 100)) (99 / 100)

/-- Embeds one entry of
`X = np.exp(L_aug @ np.diag(jtm) @ np.log(mu) + np.log(p))` from
`get_label_probs`: entry `(i, y)` is
`exp(sum_c L_aug[i,c] * jtm[c] * log(clip(mu[c,y])) + log(p[y]))`.
The junction-tree weight vector `jtm` is a parameter (the source sets it
to all ones when no dependencies are declared, and from the clique-tree
column ranges otherwise). -/
noncomputable def scoreX (d : ℕ) (Laug : ℕ → ℕ → ℚ) (jtmv : ℕ → ℚ)
    (mu : ℕ → ℕ → ℝ) (p : ℕ → ℝ) (i y : ℕ) : ℝ :=
  Real.exp ((∑ c ∈ Finset.range d,
    (Laug i c : ℝ) * (jtmv c : ℝ) * Real.log (clip01 (mu c y))) +
    Real.log (p y))

/-- Embeds the returned matrix of `get_label_probs`: `X / Z` where
`Z = np.tile(X.sum(axis=1)...)` is the per-row sum of `X` over the `k`
classes. -/
noncomputable def getLabelProbs (d k : ℕ) (Laug : ℕ → ℕ → ℚ) (jtmv : ℕ → ℚ)
    (mu : ℕ → ℕ → ℝ) (p : ℕ → ℝ) (i y : ℕ) : ℝ :=
  scoreX d Laug jtmv mu p i y /
    ∑ y' ∈ Finset.range k, scoreX d Laug jtmv mu p i y'

/-- C1: for every fitted model (any clipped `mu`, any weight vector,
any prior) and every input label matrix, the matrix returned by
`get_label_probs` is row-stochastic: every entry lies in `[0,1]` and
every row sums to 1 (exactly, in real arithmetic). -/
theorem getLabelProbs_row_stochastic (d k : ℕ) (hk : 0 < k)
    (Laug : ℕ → ℕ → ℚ) (jtmv : ℕ → ℚ) (mu : ℕ → ℕ → ℝ) (p : ℕ → ℝ) (i : ℕ) :
    (∀ y, y < k → 0 ≤ getLabelProbs d k Laug jtmv mu p i y ∧
      getLabelProbs d k Laug jtmv mu p i y ≤ 1) ∧
    ∑ y ∈ Finset.range k, getLabelProbs d k Laug jtmv mu p i y = 1 := by
  have hpos : ∀ y, 0 < scoreX d Laug jtmv mu p i y := fun y => Real.exp_pos _
  have hT : 0 < ∑ y' ∈ Finset.range k, scoreX d Laug jtmv mu p i y' :=
    Finset.sum_pos (fun y _ => hpos y) ⟨0, Finset.mem_range.2 hk⟩
  constructor
  · intro y hy
    constructor
    · exact le_of_lt (div_pos (hpos y) hT)
    · exact (div_le_one hT).2
        (Finset.single_le_sum (fun y' _ => le_of_lt (hpos y'))
          (Finset.mem_range.2 hy))
  · unfold getLabelProbs
    rw [← Finset.sum_div]
    exact div_self (ne_of_gt hT)

/-- Witness for `getLabelProbs_row_stochastic` at a concrete input
(`d = 2`, `k = 2`, uniform prior, all-ones weights). -/
theorem getLabelProbs_row_stochastic_witness :
    0 < 2 ∧
    ((∀ y, y < 2 → 0 ≤ getLabelProbs 2 2 (fun _ _ => 0) (fun _ => 1)
        (fun _ _ => 1 / 2) (fun _ => 1 / 2) 0 y ∧
      getLabelProbs 2 2 (fun _ _ => 0) (fun _ => 1)
        (fun _ _ => 1 / 2) (fun _ => 1 / 2) 0 y ≤ 1) ∧
    ∑ y ∈ Finset.range 2, getLabelProbs 2 2 (fun _ _ => 0) (fun _ => 1)
        (fun _ _ => 1 / 2) (fun _ => 1 / 2) 0 y = 1) :=
  ⟨by decide, getLabelProbs_row_stochastic 2 2 (by decide)
    (fun _ _ => 0) (fun _ => 1) (fun _ _ => 1 / 2) (fun _ => 1 / 2) 0⟩

/-- C2: a row of the input label matrix in which all `m` sources
abstain (all entries 0) yields a posterior row equal to the
class-balance prior `p` normalized by its own total mass; inference is
a total function here, so no error is raised on such a row. -/
theorem getLabelProbs_all_abstain (k m : ℕ) (hk : 0 < k) (L : ℕ → ℕ → ℕ)
    (jtmv : ℕ → ℚ) (mu : ℕ → ℕ → ℝ) (p : ℕ → ℝ) (i : ℕ)
    (habst : ∀ j, j < m → L i j = 0) (hp : ∀ y, y < k → 0 < p y)
    (y : ℕ) (hy : y < k) :
    getLabelProbs (m * k) k (LAug k L) jtmv mu p i y =
      p y / ∑ y' ∈ Finset.range k, p y' := by
  have hzero : ∀ c ∈ Finset.range (m * k), LAug k L i c = 0 := by
    intro c hc
    have hck : c < m * k := Finset.mem_range.1 hc
    have hdiv : c / k < m := (Nat.div_lt_iff_lt_mul hk).2 hck
    unfold LAug
    rw [habst (c / k) hdiv]
    simp [Nat.succ_ne_zero]
  have hsc : ∀ y', y' < k → scoreX (m * k) (LAug k L) jtmv mu p i y' = p y' := by
    intro y' hy'
    unfold scoreX
    have hsum : (∑ c ∈ Finset.range (m * k),
        ((LAug k L i c : ℝ) * (jtmv c : ℝ) * Real.log (clip01 (mu c y')))) = 0 := by
      apply Finset.sum_eq_zero
      intro c hc
      rw [hzero c hc]
      push_cast
      ring
    rw [hsum, zero_add, Real.exp_log (hp y' hy')]
  unfold getLabelProbs
  rw [hsc y hy]
  congr 1
  exact Finset.sum_congr rfl (fun y' hy' => hsc y' (Finset.mem_range.1 hy'))

/-- Witness for `getLabelProbs_all_abstain` at a concrete input:
`m = 2` all-abstaining sources, `k = 2`, uniform prior. -/
theorem getLabelProbs_all_abstain_witness :
    (0 < 2 ∧ (∀ j, j < 2 → (fun _ _ => 0 : ℕ → ℕ → ℕ) 0 j = 0) ∧
      (∀ y, y < 2 → (0 : ℝ) < (fun _ => 1 / 2 : ℕ → ℝ) y) ∧ 0 < 2) ∧
    getLabelProbs (2 * 2) 2 (LAug 2 (fun _ _ => 0)) (fun _ => 1)
        (fun _ _ => 1 / 2) (fun _ => 1 / 2) 0 0 =
      (fun _ => 1 / 2 : ℕ → ℝ) 0 / ∑ y' ∈ Finset.range 2, (fun _ => 1 / 2 : ℕ → ℝ) y' :=
  ⟨⟨by decide, fun _ _ => rfl, fun _ _ => by norm_num, by decide⟩,
    getLabelProbs_all_abstain 2 2 (by decide) (fun _ _ => 0) (fun _ => 1)
      (fun _ _ => 1 / 2) (fun _ => 1 / 2) 0 (fun _ _ => rfl)
      (fun _ _ => by norm_num) 0 (by decide)⟩

/-! ### Mask construction (`LabelModel._init_params`) -/

/-- The training entry point reaches `_init_params` through
`_generate_O`, which builds the augmented matrix with
`higher_order=False`; hence `self.c_data` holds exactly the unary
entries: source `i` owns columns `i*k .. (i+1)*k - 1` and
`max_cliques` is the set of clique-tree nodes whose member set contains
`i`.  A clique tree is represented by the list of its nodes' member
lists; `maxCliques nodes i` embeds the `max_cliques` field. -/
def maxCliques (nodes : List (List ℕ)) (i : ℕ) : List ℕ :=
  (List.range nodes.length).filter (fun t => i ∈ nodes.getD t [])

/-- Embeds the test
`len(ci['max_cliques'].intersection(cj['max_cliques'])) > 0` from
`_init_params`. -/
def sharesB (nodes : List (List ℕ)) (i j : ℕ) : Bool :=
  (maxCliques nodes i).any (fun t => decide (t ∈ maxCliques nodes j))

/-- Membership of `(a, b)` in the column block of the source pair
`(i, j)` (rows `i*k .. (i+1)*k - 1`, columns `j*k .. (j+1)*k - 1`),
i.e. the index set of the assignment `mask[si:ei, sj:ej] = 0`. -/
def inBlk (k i j a b : ℕ) : Prop :=
  i * k ≤ a ∧ a < (i + 1) * k ∧ j * k ≤ b ∧ b < (j + 1) * k

instance (k i j a b : ℕ) : Decidable (inBlk k i j a b) := by
  unfold inBlk; infer_instance

/-- Embeds the pair of assignments `mask[si:ei, sj:ej] = 0` and
`mask[sj:ej, si:ei] = 0` from `_init_params`. -/
def blockZero (k i j : ℕ) (M : ℕ → ℕ → Bool) : ℕ → ℕ → Bool :=
  fun a b => if inBlk k i j a b ∨ inBlk k j i a b then false else M a b

/-- Embeds the mask built by `_init_params`: start from all ones
(`torch.ones(d, d)`), and for every pair of `c_data` entries (sources
`0 .. m-1`, in order) whose `max_cliques` sets intersect, zero both
corresponding blocks. -/
def buildMask (k m : ℕ) (nodes : List (List ℕ)) : ℕ → ℕ → Bool :=
  (List.range m).foldl
    (fun M i => (List.range m).foldl
      (fun M' j => if sharesB nodes i j then blockZero k i j M' else M') M)
    (fun _ _ => true)

lemma sharesB_iff (nodes : List (List ℕ)) (i j : ℕ) :
    sharesB nodes i j = true ↔
      ∃ t, t ∈ maxCliques nodes i ∧ t ∈ maxCliques nodes j := by
  unfold sharesB
  rw [List.any_eq_true]
  constructor
  · rintro ⟨t, ht, hc⟩
    exact ⟨t, ht, of_decide_eq_true hc⟩
  · rintro ⟨t, ht, hc⟩
    exact ⟨t, ht, decide_eq_true hc⟩

lemma sharesB_symm (nodes : List (List ℕ)) (i j : ℕ) :
    sharesB nodes i j = sharesB nodes j i := by
  by_cases h : sharesB nodes i j = true
  · obtain ⟨t, h1, h2⟩ := (sharesB_iff nodes i j).1 h
    rw [h, ((sharesB_iff nodes j i).2 ⟨t, h2, h1⟩)]
  · have h' : sharesB nodes j i ≠ true := by
      intro hc
      obtain ⟨t, h1, h2⟩ := (sharesB_iff nodes j i).1 hc
      exact h ((sharesB_iff nodes i j).2 ⟨t, h2, h1⟩)
    rw [Bool.eq_false_iff.2 h, Bool.eq_false_iff.2 h']

lemma blockZero_false_iff (k i j : ℕ) (M : ℕ → ℕ → Bool) (a b : ℕ) :
    blockZero k i j M a b = false ↔
      (inBlk k i j a b ∨ inBlk k j i a b) ∨ M a b = false := by
  unfold blockZero
  by_cases h : inBlk k i j a b ∨ inBlk k j i a b <;> simp [h]

lemma inner_fold_false_iff (nodes : List (List ℕ)) (k i : ℕ)
    (l : List ℕ) (M : ℕ → ℕ → Bool) (a b : ℕ) :
    ((l.foldl (fun M' j => if sharesB nodes i j then blockZero k i j M' else M') M)
        a b = false) ↔
      (M a b = false ∨ ∃ j ∈ l, sharesB nodes i j = true ∧
        (inBlk k i j a b ∨ inBlk k j i a b)) := by
  induction l generalizing M with
  | nil => simp
  | cons j t ih =>
    rw [List.foldl_cons, ih]
    by_cases hs : sharesB nodes i j = true
    · rw [if_pos hs, blockZero_false_iff]
      simp only [List.mem_cons]
      constructor
      · rintro (((hb | hb) | hm) | ⟨j', hj', hsj', hbj'⟩)
        · exact Or.inr ⟨j, Or.inl rfl, hs, Or.inl hb⟩
        · exact Or.inr ⟨j, Or.inl rfl, hs, Or.inr hb⟩
        · exact Or.inl hm
        · exact Or.inr ⟨j', Or.inr hj', hsj', hbj'⟩
      · rintro (hm | ⟨j', hj' | hj', hsj', hbj'⟩)
        · exact Or.inl (Or.inr hm)
        · subst hj'; exact Or.inl (Or.inl hbj')
        · exact Or.inr ⟨j', hj', hsj', hbj'⟩
    · rw [if_neg hs]
      simp only [List.mem_cons]
      constructor
      · rintro (hm | ⟨j', hj', hsj', hbj'⟩)
        · exact Or.inl hm
        · exact Or.inr ⟨j', Or.inr hj', hsj', hbj'⟩
      · rintro (hm | ⟨j', hj' | hj', hsj', hbj'⟩)
        · exact Or.inl hm
        · subst hj'; exact absurd hsj' hs
        · exact Or.inr ⟨j', hj', hsj', hbj'⟩

lemma outer_fold_false_iff (nodes : List (List ℕ)) (k m : ℕ)
    (l : List ℕ) (M : ℕ → ℕ → Bool) (a b : ℕ) :
    ((l.foldl (fun M i => (List.range m).foldl
        (fun M' j => if sharesB nodes i j then blockZero k i j M' else M') M) M)
      a b = false) ↔
    (M a b = false ∨ ∃ i ∈ l, ∃ j ∈ List.range m, sharesB nodes i j = true ∧
      (inBlk k i j a b ∨ inBlk k j i a b)) := by
  induction l generalizing M with
  | nil => simp
  | cons i t ih =>
    rw [List.foldl_cons, ih, inner_fold_false_iff]
    simp only [List.mem_cons]
    constructor
    · rintro ((hm | ⟨j, hj, hsj, hbj⟩) | ⟨i', hi', j', hj', hsj', hbj'⟩)
      · exact Or.inl hm
      · exact Or.inr ⟨i, Or.inl rfl, j, hj, hsj, hbj⟩
      · exact Or.inr ⟨i', Or.inr hi', j', hj', hsj', hbj'⟩
    · rintro (hm | ⟨i', hi' | hi', j', hj', hsj', hbj'⟩)
      · exact Or.inl (Or.inl hm)
      · subst hi'; exact Or.inl (Or.inr ⟨j', hj', hsj', hbj'⟩)
      · exact Or.inr ⟨i', hi', j', hj', hsj', hbj'⟩

lemma buildMask_false_iff (k m : ℕ) (nodes : List (List ℕ)) (a b : ℕ) :
    buildMask k m nodes a b = false ↔
      ∃ i ∈ List.range m, ∃ j ∈ List.range m, sharesB nodes i j = true ∧
        (inBlk k i j a b ∨ inBlk k j i a b) := by
  unfold buildMask
  rw [outer_fold_false_iff]
  simp

lemma div_eq_iff_blk (k : ℕ) (hk : 0 < k) (i a : ℕ) :
    a / k = i ↔ (i * k ≤ a ∧ a < (i + 1) * k) := by
  constructor
  · intro h
    subst h
    refine ⟨?_, ?_⟩
    · have h1 : k * (a / k) ≤ k * (a / k) + a % k := Nat.le_add_right _ _
      rw [Nat.div_add_mod a k] at h1
      rw [mul_comm]
      exact h1
    · have hmod := Nat.mod_lt a hk
      have hdm := Nat.div_add_mod a k
      calc a = k * (a / k) + a % k := hdm.symm
        _ < k * (a / k) + k := by omega
        _ = (a / k + 1) * k := by ring
  · rintro ⟨h1, h2⟩
    have hle : i ≤ a / k := by
      rw [Nat.le_div_iff_mul_le hk]
      exact h1
    have hlt : a / k < i + 1 := (Nat.div_lt_iff_lt_mul hk).2 h2
    omega

lemma inBlk_iff_div (k : ℕ) (hk : 0 < k) (i j a b : ℕ) :
    inBlk k i j a b ↔ (a / k = i ∧ b / k = j) := by
  unfold inBlk
  rw [div_eq_iff_blk k hk i a, div_eq_iff_blk k hk j b]
  tauto

/-- The mask, restricted to its actual index range, zeroes exactly the
block entries whose sources share a clique-tree node. -/
lemma buildMask_char (k m : ℕ) (hk : 0 < k) (nodes : List (List ℕ))
    (a b : ℕ) (ha : a < m * k) (hb : b < m * k) :
    buildMask k m nodes a b = false ↔ sharesB nodes (a / k) (b / k) = true := by
  rw [buildMask_false_iff]
  constructor
  · rintro ⟨i, _, j, _, hs, hblk | hblk⟩
    · obtain ⟨hai, hbj⟩ := (inBlk_iff_div k hk i j a b).1 hblk
      rw [hai, hbj]; exact hs
    · obtain ⟨haj, hbi⟩ := (inBlk_iff_div k hk j i a b).1 hblk
      rw [haj, hbi, sharesB_symm]; exact hs
  · intro hs
    refine ⟨a / k, List.mem_range.2 ((Nat.div_lt_iff_lt_mul hk).2 ha),
      b / k, List.mem_range.2 ((Nat.div_lt_iff_lt_mul hk).2 hb), hs, Or.inl ?_⟩
    exact (inBlk_iff_div k hk (a / k) (b / k) a b).2 ⟨rfl, rfl⟩

lemma buildMask_symm (k m : ℕ) (nodes : List (List ℕ)) (a b : ℕ) :
    buildMask k m nodes a b = buildMask k m nodes b a := by
  by_cases h : buildMask k m nodes a b = false
  · obtain ⟨i, hi, j, hj, hs, hblk⟩ := (buildMask_false_iff k m nodes a b).1 h
    have h' : buildMask k m nodes b a = false := by
      refine (buildMask_false_iff k m nodes b a).2 ⟨i, hi, j, hj, hs, ?_⟩
      unfold inBlk at hblk ⊢
      tauto
    rw [h, h']
  · have h' : buildMask k m nodes b a ≠ false := by
      intro hc
      obtain ⟨i, hi, j, hj, hs, hblk⟩ := (buildMask_false_iff k m nodes b a).1 hc
      refine h ((buildMask_false_iff k m nodes a b).2 ⟨i, hi, j, hj, hs, ?_⟩)
      unfold inBlk at hblk ⊢
      tauto
    rw [eq_true_of_ne_false h, eq_true_of_ne_false h']

/-- Modelled from the spec: the Dependency Structure Resolver
(function `get_clique_tree`, whose source is not part of this
repository snapshot) maps `m` source indices and a list of pairwise
dependency edges to a clique tree whose nodes are the maximal cliques
of mutually dependent sources.  For two sources with the single
dependency edge `(0, 1)`, the only maximal clique contains both
sources, and the tree has no separator edges. -/
def cliqueTreeTwoDep : List (List ℕ) := [[0, 1]]

/-- C6: the `d x d` mask built by `_init_params` is zero exactly on
block entries whose two column groups share a maximal clique of the
clique tree, and one elsewhere; it is symmetric; and for two sources
declared dependent via one edge it zeroes exactly the `2 x 2` diagonal
block in source-index terms (the whole `2k x 2k` index range, since
`m = 2`). -/
theorem buildMask_same_clique_blocks (k m : ℕ) (hk : 0 < k)
    (nodes : List (List ℕ)) :
    (∀ a b, a < m * k → b < m * k →
      (buildMask k m nodes a b = false ↔
        sharesB nodes (a / k) (b / k) = true)) ∧
    (∀ a b, buildMask k m nodes a b = buildMask k m nodes b a) ∧
    (∀ a b, a < 2 * k → b < 2 * k →
      buildMask k 2 cliqueTreeTwoDep a b = false) := by
  refine ⟨fun a b ha hb => buildMask_char k m hk nodes a b ha hb,
    fun a b => buildMask_symm k m nodes a b, fun a b ha hb => ?_⟩
  have hda : a / k < 2 := (Nat.div_lt_iff_lt_mul hk).2 ha
  have hdb : b / k < 2 := (Nat.div_lt_iff_lt_mul hk).2 hb
  refine (buildMask_char k 2 hk cliqueTreeTwoDep a b ha hb).2 ?_
  refine (sharesB_iff cliqueTreeTwoDep (a / k) (b / k)).2 ⟨0, ?_, ?_⟩ <;>
  · refine List.mem_filter.2 ⟨by decide, ?_⟩
    simp only [cliqueTreeTwoDep, List.getD]
    interval_cases (a / k) <;> interval_cases (b / k) <;> decide

/-- Witness for `buildMask_same_clique_blocks` at `k = 2`, `m = 2`,
with the two-source one-edge clique tree. -/
theorem buildMask_same_clique_blocks_witness :
    0 < 2 ∧
    ((∀ a b, a < 2 * 2 → b < 2 * 2 →
      (buildMask 2 2 cliqueTreeTwoDep a b = false ↔
        sharesB cliqueTreeTwoDep (a / 2) (b / 2) = true)) ∧
    (∀ a b, buildMask 2 2 cliqueTreeTwoDep a b =
      buildMask 2 2 cliqueTreeTwoDep b a) ∧
    (∀ a b, a < 2 * 2 → b < 2 * 2 →
      buildMask 2 2 cliqueTreeTwoDep a b = false)) :=
  ⟨by decide, buildMask_same_clique_blocks 2 2 (by decide) cliqueTreeTwoDep⟩

/-! ### Z-estimation objective (`LabelModel.loss_inv_Z`) -/

/-- Embeds `LabelModel.loss_inv_Z`:
`torch.norm((O_inv + Z @ Z.t())[mask]) ** 2`, i.e. the sum of the
squares of the entries of `O_inv + Z Z^T` at the positions where the
mask is 1. -/
def lossInvZ (d k : ℕ) (mask : ℕ → ℕ → Bool) (Oinv Z : ℕ → ℕ → ℚ) : ℚ :=
  ∑ a ∈ Finset.range d, ∑ b ∈ Finset.range d,
    if mask a b then
      (Oinv a b + ∑ c ∈ Finset.range k, Z a c * Z b c) ^ 2
    else 0

/-- Modelled from the spec: the Z-estimation objective as claim C4
words it, restricted exactly to the entries whose column pair belongs
to the same maximal clique (the same-clique blocks).  It is compared
against `lossInvZ` (the source's objective). -/
def lossInvZSameClique (d k : ℕ) (nodes : List (List ℕ))
    (Oinv Z : ℕ → ℕ → ℚ) : ℚ :=
  ∑ a ∈ Finset.range d, ∑ b ∈ Finset.range d,
    if sharesB nodes (a / k) (b / k) then
      (Oinv a b + ∑ c ∈ Finset.range k, Z a c * Z b c) ^ 2
    else 0

/-- Counterexample to C4 as stated: with `k = 1`, three sources of
which the first two are dependent (clique tree with nodes `[0,1]` and
`[2]`), `O_inv = 0` and `Z = e_0`, the source objective `loss_inv_Z`
is 0 (it only sums the entries whose column pairs do not share a
clique, which all vanish here), while restricting to the same-clique
entries as the claim states would give 1 (from the `(0,0)` entry of
`Z Z^T` inside the `[0,1]` clique block). -/
theorem lossInvZ_not_same_clique_restricted :
    lossInvZ 3 1 (buildMask 1 3 [[0, 1], [2]]) (fun _ _ => 0)
      (fun a _ => if a = 0 then 1 else 0) = 0 ∧
    lossInvZSameClique 3 1 [[0, 1], [2]] (fun _ _ => 0)
      (fun a _ => if a = 0 then 1 else 0) = 1 := by
  have hchar := buildMask_char 1 3 (by decide) [[0, 1], [2]]
  have hf : ∀ a b, a < 3 → b < 3 →
      sharesB [[0, 1], [2]] (a / 1) (b / 1) = true →
      buildMask 1 3 [[0, 1], [2]] a b = false :=
    fun a b ha hb hs => (hchar a b ha hb).2 hs
  have ht : ∀ a b, a < 3 → b < 3 →
      sharesB [[0, 1], [2]] (a / 1) (b / 1) = false →
      buildMask 1 3 [[0, 1], [2]] a b = true := by
    intro a b ha hb hs
    rcases Bool.eq_false_or_eq_true (buildMask 1 3 [[0, 1], [2]] a b)
      with h | h
    · exact h
    · rw [(hchar a b ha hb).1 h] at hs
      exact absurd hs (by simp)
  have h00 := hf 0 0 (by decide) (by decide) (by decide)
  have h01 := hf 0 1 (by decide) (by decide) (by decide)
  have h10 := hf 1 0 (by decide) (by decide) (by decide)
  have h11 := hf 1 1 (by decide) (by decide) (by decide)
  have h22 := hf 2 2 (by decide) (by decide) (by decide)
  have h02 := ht 0 2 (by decide) (by decide) (by decide)
  have h20 := ht 2 0 (by decide) (by decide) (by decide)
  have h12 := ht 1 2 (by decide) (by decide) (by decide)
  have h21 := ht 2 1 (by decide) (by decide) (by decide)
  constructor
  · unfold lossInvZ
    simp only [Finset.sum_range_succ, Finset.sum_range_zero,
      h00, h01, h02, h10, h11, h12, h20, h21, h22]
    norm_num
  · unfold lossInvZSameClique
    have hs00 : sharesB [[0, 1], [2]] (0 / 1) (0 / 1) = true := by decide
    have hs01 : sharesB [[0, 1], [2]] (0 / 1) (1 / 1) = true := by decide
    have hs02 : sharesB [[0, 1], [2]] (0 / 1) (2 / 1) = false := by decide
    have hs10 : sharesB [[0, 1], [2]] (1 / 1) (0 / 1) = true := by decide
    have hs11 : sharesB [[0, 1], [2]] (1 / 1) (1 / 1) = true := by decide
    have hs12 : sharesB [[0, 1], [2]] (1 / 1) (2 / 1) = false := by decide
    have hs20 : sharesB [[0, 1], [2]] (2 / 1) (0 / 1) = false := by decide
    have hs21 : sharesB [[0, 1], [2]] (2 / 1) (1 / 1) = false := by decide
    have hs22 : sharesB [[0, 1], [2]] (2 / 1) (2 / 1) = true := by decide
    simp only [Finset.sum_range_succ, Finset.sum_range_zero,
      hs00, hs01, hs02, hs10, hs11, hs12, hs20, hs21, hs22]
    norm_num

/-- C4 (amended): the Z-estimation objective is the squared norm of
`O_inv + Z Z^T` restricted to the entries where the mask is 1 — exactly
the entries whose column pairs do NOT share a maximal clique (the
off-clique entries); the same-clique blocks are excluded. -/
theorem lossInvZ_off_clique_entries (k m : ℕ) (hk : 0 < k)
    (nodes : List (List ℕ)) (Oinv Z : ℕ → ℕ → ℚ) :
    lossInvZ (m * k) k (buildMask k m nodes) Oinv Z =
      ∑ a ∈ Finset.range (m * k), ∑ b ∈ Finset.range (m * k),
        if sharesB nodes (a / k) (b / k) then 0
        else (Oinv a b + ∑ c ∈ Finset.range k, Z a c * Z b c) ^ 2 := by
  unfold lossInvZ
  refine Finset.sum_congr rfl (fun a ha => Finset.sum_congr rfl (fun b hb => ?_))
  have ha' := Finset.mem_range.1 ha
  have hb' := Finset.mem_range.1 hb
  by_cases hs : sharesB nodes (a / k) (b / k) = true
  · have hmask : buildMask k m nodes a b = false :=
      (buildMask_char k m hk nodes a b ha' hb').2 hs
    rw [hmask, if_pos hs]
    simp
  · have hmask : buildMask k m nodes a b = true := by
      rcases Bool.eq_false_or_eq_true (buildMask k m nodes a b) with ht | hf
      · exact ht
      · exact absurd ((buildMask_char k m hk nodes a b ha' hb').1 hf) hs
    rw [hmask, if_neg hs]
    simp

/-- Witness for `lossInvZ_off_clique_entries` at `k = 1`, `m = 2`,
two singleton cliques, `O_inv = 0`, `Z = e_0`. -/
theorem lossInvZ_off_clique_entries_witness :
    0 < 1 ∧
    lossInvZ (2 * 1) 1 (buildMask 1 2 [[0], [1]]) (fun _ _ => 0)
        (fun a _ => if a = 0 then 1 else 0) =
      ∑ a ∈ Finset.range (2 * 1), ∑ b ∈ Finset.range (2 * 1),
        if sharesB [[0], [1]] (a / 1) (b / 1) then 0
        else ((fun _ _ => (0 : ℚ)) a b + ∑ c ∈ Finset.range 1,
          (fun a _ => if a = 0 then (1 : ℚ) else 0) a c *
          (fun a _ => if a = 0 then (1 : ℚ) else 0) b c) ^ 2 :=
  ⟨by decide, lossInvZ_off_clique_entries 1 2 (by decide) [[0], [1]]
    (fun _ _ => 0) (fun a _ => if a = 0 then 1 else 0)⟩

/-! ### Parameter initialization (`LabelModel._init_params`) -/

/-- Embeds one assignment
`mu_init[i*k + y, y] += np.random.random()` from `_init_params`; the
random draw consumed there is `r (i*k + y)` (one independent draw per
visited entry, in loop order). -/
def muInitAdd (k : ℕ) (r : ℕ → ℚ) (M : ℕ → ℕ → ℚ) (i y : ℕ) : ℕ → ℕ → ℚ :=
  fun a b => if a = i * k + y ∧ b = y then M a b + r (i * k + y) else M a b

/-- Embeds `mu_init` from `_init_params`: start from
`torch.zeros(d, k)` and run the double loop over sources `i < m` and
classes `y < k`, each step adding a random draw at entry
`(i*k + y, y)`. -/
def muInit (k m : ℕ) (r : ℕ → ℚ) : ℕ → ℕ → ℚ :=
  (List.range m).foldl
    (fun M i => (List.range k).foldl (fun M' y => muInitAdd k r M' i y) M)
    (fun _ _ => 0)

lemma muInit_inner_fold (k : ℕ) (r : ℕ → ℚ) (i : ℕ) (l : List ℕ)
    (M : ℕ → ℕ → ℚ) (a b : ℕ) (hnd : l.Nodup) :
    (l.foldl (fun M' y => muInitAdd k r M' i y) M) a b =
      M a b + (if b ∈ l ∧ a = i * k + b then r (i * k + b) else 0) := by
  induction l generalizing M with
  | nil => simp
  | cons y t ih =>
    have hnd' : t.Nodup := (List.nodup_cons.1 hnd).2
    have hyt : y ∉ t := (List.nodup_cons.1 hnd).1
    rw [List.foldl_cons, ih _ hnd']
    unfold muInitAdd
    by_cases hb : b = y
    · subst hb
      by_cases ha : a = i * k + b
      · have hbt : ¬(b ∈ t ∧ a = i * k + b) := fun hc => hyt hc.1
        rw [if_pos ⟨ha, rfl⟩, if_neg hbt,
          if_pos ⟨List.mem_cons_self b t, ha⟩, ha]
        ring
      · have h1 : ¬(a = i * k + b ∧ b = b) := fun hc => ha hc.1
        have h2 : ¬(b ∈ t ∧ a = i * k + b) := fun hc => ha hc.2
        have h3 : ¬(b ∈ b :: t ∧ a = i * k + b) := fun hc => ha hc.2
        rw [if_neg h1, if_neg h2, if_neg h3]
    · have h1 : ¬(a = i * k + y ∧ b = y) := fun hc => hb hc.2
      rw [if_neg h1]
      have hmem : (b ∈ y :: t) ↔ (b ∈ t) := by
        simp [List.mem_cons, hb]
      by_cases h2 : b ∈ t ∧ a = i * k + b
      · rw [if_pos h2, if_pos ⟨hmem.2 h2.1, h2.2⟩]
      · have h3 : ¬(b ∈ y :: t ∧ a = i * k + b) := fun hc => h2 ⟨hmem.1 hc.1, hc.2⟩
        rw [if_neg h2, if_neg h3]

lemma muInit_outer_fold (k : ℕ) (r : ℕ → ℚ) (l : List ℕ) :
    l.Nodup → ∀ (M : ℕ → ℕ → ℚ) (a b : ℕ),
    (l.foldl (fun M i => (List.range k).foldl
        (fun M' y => muInitAdd k r M' i y) M) M) a b =
      M a b + (if b < k ∧ ∃ i ∈ l, a = i * k + b then r a else 0) := by
  induction l with
  | nil => intro _ M a b; simp
  | cons i t ih =>
      intro hnd M a b
      have hnd' : t.Nodup := (List.nodup_cons.1 hnd).2
      have hit : i ∉ t := (List.nodup_cons.1 hnd).1
      rw [List.foldl_cons, ih hnd' _ a b,
        muInit_inner_fold k r i (List.range k) M a b (List.nodup_range k)]
      by_cases hcase : b < k ∧ a = i * k + b
      · have h1 : b ∈ List.range k ∧ a = i * k + b :=
          ⟨List.mem_range.2 hcase.1, hcase.2⟩
        have h2 : ¬(b < k ∧ ∃ i' ∈ t, a = i' * k + b) := by
          rintro ⟨hbk, i', hi't, ha'⟩
          have hk0 : 0 < k := by omega
          have heq : i' * k + b = i * k + b := by
            rw [← ha']
            exact hcase.2
          have : i' = i :=
            Nat.eq_of_mul_eq_mul_right hk0 (Nat.add_right_cancel heq)
          subst this
          exact hit hi't
        have h3 : b < k ∧ ∃ i' ∈ i :: t, a = i' * k + b :=
          ⟨hcase.1, i, List.mem_cons_self i t, hcase.2⟩
        rw [if_pos h1, if_neg h2, if_pos h3, hcase.2]
        ring
      · have h1 : ¬(b ∈ List.range k ∧ a = i * k + b) := by
          rintro ⟨hbk, ha⟩
          exact hcase ⟨List.mem_range.1 hbk, ha⟩
        rw [if_neg h1, add_zero]
        by_cases h2 : b < k ∧ ∃ i' ∈ t, a = i' * k + b
        · obtain ⟨hbk, i', hi't, ha'⟩ := h2
          have h3 : b < k ∧ ∃ i'' ∈ i :: t, a = i'' * k + b :=
            ⟨hbk, i', List.mem_cons_of_mem i hi't, ha'⟩
          rw [if_pos ⟨hbk, i', hi't, ha'⟩, if_pos h3]
        · have h3 : ¬(b < k ∧ ∃ i'' ∈ i :: t, a = i'' * k + b) := by
            rintro ⟨hbk, i'', hi'', ha''⟩
            rcases List.mem_cons.1 hi'' with he | ht'
            · subst he; exact hcase ⟨hbk, ha''⟩
            · exact h2 ⟨hbk, i'', ht', ha''⟩
          rw [if_neg h2, if_neg h3]

lemma muInit_closed_form (k m : ℕ) (r : ℕ → ℚ) (a b : ℕ) :
    muInit k m r a b =
      if b < k ∧ ∃ i, i < m ∧ a = i * k + b then r a else 0 := by
  unfold muInit
  rw [muInit_outer_fold k r (List.range m) (List.nodup_range m) (fun _ _ => 0) a b]
  simp only [List.mem_range, zero_add]

/-- Counterexample to C5 as stated: `np.random.random()` draws from
`[0, 1)`, a range that contains 0; with the admissible draw value 0
(the conjuncts record that 0 lies in `[0, 1)`), the seeded diagonal
entry `mu_init[0*1 + 0, 0]` is 0, not strictly positive.  Moreover,
with the nonzero draw value 1/2 (for `k = 2`, `m = 1`), the
off-diagonal entry `mu_init[0, 1]` is 0, not a random value. -/
theorem muInit_zero_draw_not_positive :
    muInit 1 1 (fun _ => (0 : ℚ)) 0 0 = 0 ∧
    ((0 : ℚ) ≤ 0 ∧ (0 : ℚ) < 1) ∧
    muInit 2 1 (fun _ => (1 / 2 : ℚ)) 0 1 = 0 := by
  refine ⟨?_, ⟨le_refl 0, by norm_num⟩, ?_⟩
  · rw [muInit_closed_form 1 1 (fun _ => (0 : ℚ)) 0 0,
      if_pos ⟨Nat.zero_lt_one, 0, Nat.zero_lt_one, rfl⟩]
  · rw [muInit_closed_form 2 1 (fun _ => (1 / 2 : ℚ)) 0 1,
      if_neg (by rintro ⟨-, i, hi, h⟩; omega :
        ¬((1 : ℕ) < 2 ∧ ∃ i, i < 1 ∧ (0 : ℕ) = i * 2 + 1))]

/-- C5 (amended): `mu_init` is zero everywhere except the entries
`(i*k + y, y)` for sources `i < m` and classes `y < k`, which are set
to one random draw each from `[0, 1)` — hence nonnegative (and
positive except when the draw is exactly 0), not guaranteed strictly
positive. -/
theorem muInit_seeding (k m : ℕ) (r : ℕ → ℚ)
    (hr : ∀ t, 0 ≤ r t ∧ r t < 1) :
    (∀ i y, i < m → y < k →
      muInit k m r (i * k + y) y = r (i * k + y) ∧
      0 ≤ muInit k m r (i * k + y) y) ∧
    (∀ a b, ¬(b < k ∧ ∃ i, i < m ∧ a = i * k + b) →
      muInit k m r a b = 0) := by
  constructor
  · intro i y hi hy
    have h := muInit_closed_form k m r (i * k + y) y
    rw [if_pos ⟨hy, i, hi, rfl⟩] at h
    exact ⟨h, h ▸ (hr (i * k + y)).1⟩
  · intro a b hne
    rw [muInit_closed_form k m r a b, if_neg hne]

/-- Witness for `muInit_seeding` with `k = 2`, `m = 2` and the
constant draw 1/3. -/
theorem muInit_seeding_witness :
    (∀ t : ℕ, 0 ≤ (fun _ : ℕ => (1 / 3 : ℚ)) t ∧ (fun _ : ℕ => (1 / 3 : ℚ)) t < 1) ∧
    ((∀ i y, i < 2 → y < 2 →
      muInit 2 2 (fun _ => (1 / 3 : ℚ)) (i * 2 + y) y = (1 / 3 : ℚ) ∧
      0 ≤ muInit 2 2 (fun _ => (1 / 3 : ℚ)) (i * 2 + y) y) ∧
    (∀ a b, ¬(b < 2 ∧ ∃ i, i < 2 ∧ a = i * 2 + b) →
      muInit 2 2 (fun _ => (1 / 3 : ℚ)) a b = 0)) :=
  ⟨fun _ => ⟨by norm_num, by norm_num⟩,
    muInit_seeding 2 2 (fun _ => (1 / 3 : ℚ))
      (fun _ => ⟨by norm_num, by norm_num⟩)⟩

/-! ### Training loop (`LabelModel._train`) -/

/-- Floating-point loss values as the training loop classifies them:
a finite value, positive or negative infinity, or NaN. -/
inductive FVal where
  | fin : ℚ → FVal
  | inf : FVal
  | neginf : FVal
  | nan : FVal
deriving DecidableEq

/-- Embeds `torch.isnan(loss)`: true exactly on NaN (an infinite value
is not NaN). -/
def FVal.isnan : FVal → Bool
  | .nan => true
  | _ => false

/-- Embeds the epoch loop of `LabelModel._train` over an abstract
parameter state `σ`: each epoch computes the loss on the current
state, raises `Exception("Loss is NaN. Consider reducing learning
rate.")` if `torch.isnan(loss)`, and otherwise performs the
`loss.backward(); optimizer.step()` update (abstracted as `step`)
before the next epoch. -/
def trainLoop {σ : Type} (lossFn : σ → FVal) (step : σ → σ) :
    ℕ → σ → Except String σ
  | 0, s => Except.ok s
  | n + 1, s =>
    if (lossFn s).isnan then
      Except.error "Loss is NaN. Consider reducing learning rate."
    else trainLoop lossFn step n (step s)

/-- Counterexample to C3 as stated: with a loss that is infinite (a
non-finite, non-NaN value) at every epoch, one epoch of training does
not stop and does not raise — it completes normally and performs the
parameter update (the state advances from 0 to 1).  The NaN check also
produces a fixed message that carries no epoch index. -/
theorem trainLoop_infinite_loss_not_stopped :
    trainLoop (fun _ : ℚ => FVal.inf) (fun s => s + 1) 1 0 =
      Except.ok 1 ∧
    FVal.isnan FVal.inf = false := by
  constructor
  · show (if (FVal.inf).isnan then _ else trainLoop _ _ 0 ((0 : ℚ) + 1)) = _
    norm_num [FVal.isnan, trainLoop]
  · rfl

/-- C3 (amended): if the loss at the start of an epoch is NaN, the
training loop stops immediately — it raises the fixed exception
message (which names no epoch index) before that epoch's parameter
update and performs no retry; if the loss is not NaN (including the
infinite case, since `isnan` is false on infinities), the loop
performs the update and continues. -/
theorem trainLoop_nan_check {σ : Type} (lossFn : σ → FVal) (step : σ → σ)
    (n : ℕ) (s : σ) :
    ((lossFn s).isnan = true →
      trainLoop lossFn step (n + 1) s =
        Except.error "Loss is NaN. Consider reducing learning rate.") ∧
    ((lossFn s).isnan = false →
      trainLoop lossFn step (n + 1) s = trainLoop lossFn step n (step s)) ∧
    FVal.isnan FVal.inf = false ∧ FVal.isnan FVal.neginf = false := by
  refine ⟨fun h => ?_, fun h => ?_, rfl, rfl⟩
  · unfold trainLoop
    rw [if_pos h]
  · unfold trainLoop
    rw [if_neg (by rw [h]; exact Bool.false_ne_true)]
    cases n <;> rfl

/-- Witness for `trainLoop_nan_check`: a NaN loss on state 0 raises,
and a finite loss on state 0 continues. -/
theorem trainLoop_nan_check_witness :
    ((fun _ : ℚ => FVal.nan) 0).isnan = true ∧
    trainLoop (fun _ : ℚ => FVal.nan) (fun s => s + 1) (2 + 1) 0 =
      Except.error "Loss is NaN. Consider reducing learning rate." :=
  ⟨rfl, (trainLoop_nan_check (fun _ : ℚ => FVal.nan) (fun s => s + 1) 2 0).1 rfl⟩

/-! ### Higher-order column bookkeeping
(`LabelModel._get_augmented_label_matrix`, `higher_order=True`) -/

/-- Embeds the per-clique step of the `higher_order` loop: the state is
the current column count of `L_aug` paired with the list of
`(start_index, end_index)` ranges recorded so far.  A clique with
exactly one member reuses its unary column range `[j*k, (j+1)*k)` and
adds no columns; any other clique appends `k ^ nc` columns (one per
joint value assignment over its `nc` members) and records the appended
range. -/
def hoStep (k : ℕ) (st : ℕ × List (ℕ × ℕ)) (members : List ℕ) :
    ℕ × List (ℕ × ℕ) :=
  match members with
  | [j] => (st.1, st.2 ++ [(j * k, (j + 1) * k)])
  | _ => (st.1 + k ^ members.length,
          st.2 ++ [(st.1, st.1 + k ^ members.length)])

/-- Embeds the column-count and index bookkeeping of
`_get_augmented_label_matrix`: the unary block always contributes
`m * k` columns (`L_aug = np.zeros((n, m*km))` with `km = k` at offset
1); when `higher_order` is true the clique-tree items (nodes, then
edges, each given by its member list) are processed in order by
`hoStep`. -/
def augShape (k m : ℕ) (higherOrder : Bool) (items : List (List ℕ)) :
    ℕ × List (ℕ × ℕ) :=
  if higherOrder then items.foldl (hoStep k) (m * k, []) else (m * k, [])

lemma hoStep_singleton (k : ℕ) (st : ℕ × List (ℕ × ℕ)) (j : ℕ) :
    hoStep k st [j] = (st.1, st.2 ++ [(j * k, j * k + k)]) := by
  unfold hoStep
  simp only
  congr 2
  rw [add_mul, one_mul]

lemma hoStep_big (k : ℕ) (st : ℕ × List (ℕ × ℕ)) (ms : List ℕ)
    (h : ms.length ≠ 1) :
    hoStep k st ms = (st.1 + k ^ ms.length,
      st.2 ++ [(st.1, st.1 + k ^ ms.length)]) := by
  unfold hoStep
  match ms with
  | [] => rfl
  | [j] => exact absurd rfl h
  | a :: b :: t => rfl

lemma augShape_fold_width (k : ℕ) (items : List (List ℕ))
    (hne : ∀ it ∈ items, it ≠ []) :
    ∀ st : ℕ × List (ℕ × ℕ),
      (items.foldl (hoStep k) st).1 =
        st.1 + ((items.filter (fun it => 2 ≤ it.length)).map
          (fun it => k ^ it.length)).sum := by
  induction items with
  | nil => intro st; simp
  | cons it t ih =>
    intro st
    have hit : it ≠ [] := hne it (List.mem_cons_self it t)
    have ht : ∀ it' ∈ t, it' ≠ [] :=
      fun it' h => hne it' (List.mem_cons_of_mem it h)
    rw [List.foldl_cons]
    by_cases hlen : it.length = 1
    · have hfilt : ¬(2 ≤ it.length) := by omega
      obtain ⟨j, hj⟩ : ∃ j, it = [j] := by
        match it, hlen with
        | [j], _ => exact ⟨j, rfl⟩
      rw [ih ht]
      rw [hj, hoStep_singleton]
      simp only [List.filter_cons, decide_eq_true_eq]
      rw [if_neg (by rw [hj] at hfilt; exact hfilt)]
    · have h2 : 2 ≤ it.length := by
        have : it.length ≠ 0 := fun hc => hit (List.length_eq_zero.1 hc)
        omega
      rw [ih ht, hoStep_big k st it hlen]
      simp only [List.filter_cons, decide_eq_true_eq]
      rw [if_pos h2]
      simp only [List.map_cons, List.sum_cons]
      ring

/-- C7: with `higher_order=False` the augmented matrix has exactly
`m * k` columns.  With `higher_order=True` and every clique-tree item
nonempty, the total column count is `m * k` plus `k ^ size` for each
node or edge with at least two members — a size-2 clique contributes
exactly `k ^ 2` extra columns — while a clique of size 1 leaves the
column count unchanged and is assigned its existing unary column range
`[j*k, j*k + k)` (so it is not double-counted in `d`). -/
theorem augShape_dimension (k m : ℕ) (items : List (List ℕ))
    (hne : ∀ it ∈ items, it ≠ []) :
    (augShape k m false items).1 = m * k ∧
    (augShape k m true items).1 =
      m * k + ((items.filter (fun it => 2 ≤ it.length)).map
        (fun it => k ^ it.length)).sum ∧
    (∀ st : ℕ × List (ℕ × ℕ), ∀ j,
      hoStep k st [j] = (st.1, st.2 ++ [(j * k, j * k + k)])) ∧
    (∀ st : ℕ × List (ℕ × ℕ), ∀ ms : List ℕ, ms.length = 2 →
      hoStep k st ms = (st.1 + k ^ 2, st.2 ++ [(st.1, st.1 + k ^ 2)])) := by
  refine ⟨rfl, ?_, fun st j => hoStep_singleton k st j, fun st ms h2 => ?_⟩
  · unfold augShape
    rw [if_pos rfl]
    exact augShape_fold_width k items hne (m * k, [])
  · rw [hoStep_big k st ms (by omega), h2]

/-- Witness for `augShape_dimension`: `k = 2`, `m = 2`, one size-2
clique `[0, 1]` as the single tree node (total `2*2 + 2^2 = 8`). -/
theorem augShape_dimension_witness :
    (∀ it ∈ [[0, 1]], it ≠ ([] : List ℕ)) ∧
    ((augShape 2 2 false [[0, 1]]).1 = 2 * 2 ∧
    (augShape 2 2 true [[0, 1]]).1 =
      2 * 2 + ((([[0, 1]] : List (List ℕ)).filter
        (fun it => 2 ≤ it.length)).map (fun it => 2 ^ it.length)).sum ∧
    (∀ st : ℕ × List (ℕ × ℕ), ∀ j,
      hoStep 2 st [j] = (st.1, st.2 ++ [(j * 2, j * 2 + 2)])) ∧
    (∀ st : ℕ × List (ℕ × ℕ), ∀ ms : List ℕ, ms.length = 2 →
      hoStep 2 st ms = (st.1 + 2 ^ 2, st.2 ++ [(st.1, st.1 + 2 ^ 2)]))) :=
  ⟨by decide, augShape_dimension 2 2 [[0, 1]] (by decide)⟩

/-! ### Configuration merging (`recursive_merge_dicts` in
`src/metal/utils.py`) -/

mutual
/-- A configuration value: a primitive (modelled as an integer) or a
nested dictionary. -/
inductive MVal where
  | leaf : Int → MVal
  | dict : MDict → MVal

/-- A configuration dictionary: an ordered association list of keys and
values, as Python dictionaries preserve insertion order. -/
inductive MDict where
  | nil : MDict
  | cons : String → MVal → MDict → MDict
end

/-- Embeds the Python test `k in x` / lookup `x[k]` (top level only). -/
def MDict.get : MDict → String → Option MVal
  | .nil, _ => none
  | .cons k v rest, key => if k = key then some v else MDict.get rest key

/-- Embeds the Python assignment `x[k] = val`: overwrite in place if
the key exists, else append at the end. -/
def MDict.set : MDict → String → MVal → MDict
  | .nil, key, val => .cons key val .nil
  | .cons k v rest, key, val =>
    if k = key then .cons k val rest else .cons k v (MDict.set rest key val)

/-- The `misses` policy argument of `recursive_merge_dicts`. -/
inductive Misses where
  | insert | exception | report | ignore
deriving DecidableEq

/-- Continuation of `mergeOne` for the dict-into-dict branch: package
the result of the inner `recurse(x[k], v, misses, verbose)` call (whose
`found` flag the source discards, keeping `found = True`). -/
def mergeDictResult (x : MDict) (key : String) :
    Except String (MDict × List String × Bool) →
    Except String (MDict × List String × Bool)
  | Except.error e => Except.error e
  | Except.ok (xd', reps, _) =>
    Except.ok (x.set key (MVal.dict xd'), reps, true)

/-- Continuation of `mergeOne` for a key absent from the top level:
given the outcome of the nested search, either adopt the rebuilt
dictionary (`found = True`), or apply the `misses` policy —
`insert` sets the key, `exception` raises, `report` records the key
as missing, `ignore` does nothing. -/
def missResult (x : MDict) (key : String) (v : MVal) (misses : Misses) :
    Except String (Option MDict) →
    Except String (MDict × List String × Bool)
  | Except.error e => Except.error e
  | Except.ok (some x') => Except.ok (x', [], true)
  | Except.ok none =>
    match misses with
    | .insert => Except.ok (x.set key v, [], false)
    | .exception =>
      Except.error ("Could not find kwarg " ++ key ++ " in default config.")
    | .report => Except.ok (x, [key], false)
    | .ignore => Except.ok (x, [], false)

mutual
/-- Embeds the body of one iteration of the `for k, v in y.items()`
loop of `recurse` in `recursive_merge_dicts`, for the key `key` with
value `v` against dictionary `x`.  Returns the updated dictionary, the
keys reported as missing (the `print(msg)` calls under
`misses == 'report'`), and the iteration's `found` flag; a raised
`ValueError` becomes `Except.error`.  If `key` is in `x` and both
values are dictionaries, merge recursively (`found = True`); if `key`
is in `x` with a non-dict existing value, overwrite (`found = True`);
otherwise search the dict-valued entries of `x` in order, merging with
the `ignore` policy into the first one that contains `key` (the inner
call `recurse(vx, .., misses='ignore')` followed by `if found: break`);
if the search fails, apply the `misses` policy. -/
def mergeOne (x : MDict) (key : String) (v : MVal) (misses : Misses) :
    Except String (MDict × List String × Bool) :=
  match x.get key with
  | some (MVal.dict xd) =>
    match v with
    | MVal.dict yd => mergeDictResult x key (recurse xd yd misses)
    | _ =>
      Except.error ("Attempted to overwrite dict " ++ key ++ " with non-dict")
  | some _ => Except.ok (x.set key v, [], true)
  | none => missResult x key v misses (searchNested x key v)
termination_by (sizeOf v, sizeOf x, 1)

/-- Embeds the `for kx, vx in x.items()` search loop of `recurse`: try
to place `key := v` inside each dict-valued entry of `x` in order via
`recurse(vx, single-key dict, misses='ignore')`, stopping at the first
entry whose subtree contains `key` (`if found: break`).  Returns the
rebuilt dictionary on success, `none` if no entry's subtree contains
the key. -/
def searchNested (x : MDict) (key : String) (v : MVal) :
    Except String (Option MDict) :=
  match x with
  | .nil => Except.ok none
  | .cons kx vx rest =>
    match vx with
    | MVal.dict dx =>
      match mergeOne dx key v Misses.ignore with
      | Except.error e => Except.error e
      | Except.ok (dx', _, found) =>
        if found then
          Except.ok (some (MDict.cons kx (MVal.dict dx') rest))
        else
          match searchNested rest key v with
          | Except.error e => Except.error e
          | Except.ok (some rest') =>
            Except.ok (some (MDict.cons kx (MVal.dict dx') rest'))
          | Except.ok none => Except.ok none
    | _ =>
      match searchNested rest key v with
      | Except.error e => Except.error e
      | Except.ok (some rest') => Except.ok (some (MDict.cons kx vx rest'))
      | Except.ok none => Except.ok none
termination_by (sizeOf v, sizeOf x, 0)

/-- Embeds the inner function `recurse(x, y, misses, verbose)` of
`recursive_merge_dicts`: iterate over the keys of `y` in order,
processing each with `mergeOne` and threading the updated dictionary;
the returned flag is the `found` value of the last processed key
(`True` for an empty `y`), matching the Python return value. -/
def recurse (x : MDict) (y : MDict) (misses : Misses) :
    Except String (MDict × List String × Bool) :=
  match y with
  | .nil => Except.ok (x, [], true)
  | .cons k v rest =>
    match mergeOne x k v misses with
    | Except.error e => Except.error e
    | Except.ok (x', reps, found) =>
      match recurse x' rest misses with
      | Except.error e => Except.error e
      | Except.ok (x'', reps', found') =>
        Except.ok (x'', reps ++ reps',
          match rest with
          | MDict.nil => found
          | MDict.cons _ _ _ => found')
termination_by (sizeOf y, sizeOf x, 2)
end

/-- Embeds the top level of `recursive_merge_dicts`: run `recurse` on a
copy of `x` and return the merged dictionary together with the list of
reported missing keys (the return value of `recurse` itself is
discarded by the source). -/
def recursive_merge_dicts (x y : MDict) (misses : Misses) :
    Except String (MDict × List String) :=
  match recurse x y misses with
  | Except.error e => Except.error e
  | Except.ok (z, reps, _) => Except.ok (z, reps)

mutual
/-- Whether `key` occurs at the top level of a value's dictionary or in
any of its nested dictionaries. -/
def MVal.hasKeyDeep : MVal → String → Bool
  | .leaf _, _ => false
  | .dict d, key => MDict.hasKeyDeep d key

/-- Whether `key` occurs at the top level of `x` or in any nested
dictionary of `x` — the region searched by `recurse` before declaring
a miss. -/
def MDict.hasKeyDeep : MDict → String → Bool
  | .nil, _ => false
  | .cons k v rest, key =>
    (k == key) || MVal.hasKeyDeep v key || MDict.hasKeyDeep rest key
end

/-- The four policy outcomes of `recurse` for a key found nowhere in
the target dictionary, one per `misses` setting. -/
def mergePolicyResult (x : MDict) (key : String) (v : MVal) :
    Misses → Except String (MDict × List String × Bool)
  | .insert => Except.ok (x.set key v, [], false)
  | .exception =>
    Except.error ("Could not find kwarg " ++ key ++ " in default config.")
  | .report => Except.ok (x, [key], false)
  | .ignore => Except.ok (x, [], false)

lemma hasKeyDeep_cons (k : String) (v : MVal) (rest : MDict) (key : String) :
    MDict.hasKeyDeep (MDict.cons k v rest) key =
      ((k == key) || MVal.hasKeyDeep v key || MDict.hasKeyDeep rest key) :=
  rfl

lemma get_none_of_not_deep :
    ∀ (x : MDict) (key : String),
      x.hasKeyDeep key = false → x.get key = none
  | .nil, _, _ => rfl
  | .cons k v rest, key, h => by
    rw [hasKeyDeep_cons] at h
    simp only [Bool.or_eq_false_iff] at h
    obtain ⟨⟨hk, _⟩, hrest⟩ := h
    unfold MDict.get
    rw [if_neg (fun hkey => by subst hkey; simp at hk)]
    exact get_none_of_not_deep rest key hrest

lemma notfound_policy :
    ∀ (N : ℕ) (x : MDict), sizeOf x ≤ N →
    ∀ (key : String) (v : MVal), x.hasKeyDeep key = false →
      searchNested x key v = Except.ok none ∧
      (∀ misses, mergeOne x key v misses = mergePolicyResult x key v misses) := by
  intro N
  induction N with
  | zero =>
    intro x hx
    exact absurd hx (by cases x <;> simp)
  | succ N ih =>
    intro x hx key v hdeep
    have hget : x.get key = none := get_none_of_not_deep x key hdeep
    have hsearch : searchNested x key v = Except.ok none := by
      cases x with
      | nil => rw [searchNested]
      | cons kx vx rest =>
        rw [hasKeyDeep_cons] at hdeep
        simp only [Bool.or_eq_false_iff] at hdeep
        obtain ⟨⟨_, hv⟩, hrest⟩ := hdeep
        have hx' : sizeOf rest ≤ N := by
          have := MDict.cons.sizeOf_spec kx vx rest
          omega
        have hrestIH := ih rest hx' key v hrest
        cases vx with
        | leaf z =>
          rw [searchNested]
          simp only [hrestIH.1]
          exact fun yd h => MVal.noConfusion h
        | dict dx =>
          have hdx : MDict.hasKeyDeep dx key = false := hv
          have hdxsize : sizeOf dx ≤ N := by
            have h1 := MDict.cons.sizeOf_spec kx (MVal.dict dx) rest
            have h2 := MVal.dict.sizeOf_spec dx
            omega
          have hdxIH := ih dx hdxsize key v hdx
          rw [searchNested]
          simp only [hdxIH.2 Misses.ignore, mergePolicyResult, hrestIH.1]
          simp
    refine ⟨hsearch, fun misses => ?_⟩
    rw [mergeOne.eq_def]
    simp only [hget, hsearch]
    cases misses <;> rfl

/-- C8: for a key of `y` found neither at the top level of `x` nor in
any of its nested dictionaries, `recursive_merge_dicts` reports the
key (non-fatally, returning the unchanged dictionary) under
`misses='report'` (the default), raises an exception under
`misses='exception'`, and silently ignores it under `misses='ignore'`;
a key found at the top level with a non-dict value is overwritten, and
a dict-valued key is merged by recursing into the nested
dictionaries. -/
theorem recursive_merge_dicts_policies (x : MDict) (key : String)
    (v : MVal) (misses : Misses) :
    (x.hasKeyDeep key = false →
      recursive_merge_dicts x (MDict.cons key v MDict.nil) Misses.report =
        Except.ok (x, [key]) ∧
      recursive_merge_dicts x (MDict.cons key v MDict.nil) Misses.exception =
        Except.error ("Could not find kwarg " ++ key ++ " in default config.") ∧
      recursive_merge_dicts x (MDict.cons key v MDict.nil) Misses.ignore =
        Except.ok (x, [])) ∧
    (∀ z : Int, x.get key = some (MVal.leaf z) →
      recursive_merge_dicts x (MDict.cons key v MDict.nil) misses =
        Except.ok (x.set key v, [])) ∧
    (∀ xd yd xd' reps f, x.get key = some (MVal.dict xd) →
      recurse xd yd misses = Except.ok (xd', reps, f) →
      recursive_merge_dicts x (MDict.cons key (MVal.dict yd) MDict.nil) misses =
        Except.ok (x.set key (MVal.dict xd'), reps)) := by
  refine ⟨fun hdeep => ?_, fun z hz => ?_, fun xd yd xd' reps f hxd hrec => ?_⟩
  · have hpol := (notfound_policy (sizeOf x) x (le_refl _) key v hdeep).2
    refine ⟨?_, ?_, ?_⟩ <;>
    · rw [recursive_merge_dicts, recurse.eq_def]
      simp only [hpol, mergePolicyResult]
      all_goals simp [recurse, missResult, mergeDictResult]
  · rw [recursive_merge_dicts]
    simp only [recurse]
    rw [mergeOne.eq_def]
    simp only [hz]
    all_goals simp [recurse, missResult, mergeDictResult]
  · rw [recursive_merge_dicts]
    simp only [recurse]
    rw [mergeOne.eq_def]
    simp only [hxd, hrec]
    all_goals simp [recurse, missResult, mergeDictResult]

/-- Witness for `recursive_merge_dicts_policies`: a miss on key `b`
against the dictionary `(a -> 1)`, an overwrite of key `a`, and a
nested merge into the dict-valued key `c` of `(c -> empty dict)`. -/
theorem recursive_merge_dicts_policies_witness :
    (MDict.hasKeyDeep (MDict.cons "a" (MVal.leaf 1) MDict.nil) "b" = false ∧
      recursive_merge_dicts (MDict.cons "a" (MVal.leaf 1) MDict.nil)
          (MDict.cons "b" (MVal.leaf 2) MDict.nil) Misses.report =
        Except.ok (MDict.cons "a" (MVal.leaf 1) MDict.nil, ["b"]) ∧
      recursive_merge_dicts (MDict.cons "a" (MVal.leaf 1) MDict.nil)
          (MDict.cons "b" (MVal.leaf 2) MDict.nil) Misses.exception =
        Except.error ("Could not find kwarg " ++ "b" ++ " in default config.") ∧
      recursive_merge_dicts (MDict.cons "a" (MVal.leaf 1) MDict.nil)
          (MDict.cons "b" (MVal.leaf 2) MDict.nil) Misses.ignore =
        Except.ok (MDict.cons "a" (MVal.leaf 1) MDict.nil, [])) ∧
    (recursive_merge_dicts (MDict.cons "a" (MVal.leaf 1) MDict.nil)
        (MDict.cons "a" (MVal.leaf 2) MDict.nil) Misses.report =
      Except.ok ((MDict.cons "a" (MVal.leaf 1) MDict.nil).set "a" (MVal.leaf 2),
        [])) ∧
    (recursive_merge_dicts (MDict.cons "c" (MVal.dict MDict.nil) MDict.nil)
        (MDict.cons "c" (MVal.dict MDict.nil) MDict.nil) Misses.report =
      Except.ok ((MDict.cons "c" (MVal.dict MDict.nil) MDict.nil).set "c"
        (MVal.dict MDict.nil), [])) := by
  refine ⟨?_, ?_, ?_⟩
  · have h := (recursive_merge_dicts_policies
      (MDict.cons "a" (MVal.leaf 1) MDict.nil) "b" (MVal.leaf 2)
      Misses.report).1 (by decide)
    exact ⟨by decide, h.1, h.2.1, h.2.2⟩
  · exact (recursive_merge_dicts_policies
      (MDict.cons "a" (MVal.leaf 1) MDict.nil) "a" (MVal.leaf 2)
      Misses.report).2.1 1 rfl
  · exact (recursive_merge_dicts_policies
      (MDict.cons "c" (MVal.dict MDict.nil) MDict.nil) "c"
      (MVal.dict MDict.nil) Misses.report).2.2 MDict.nil MDict.nil
      MDict.nil [] true rfl (by rw [recurse.eq_def])

end Metal
